import Mathlib

/-!
# Verification of the category service (xalvion-api)

Shallow embedding of the category model (`src/models/category.model.js`)
and the category controller (the unnamed controller source file) of the
repository, together with proofs of the specified properties.

The document store is modelled as a list of stored category documents;
the media store and the persistence layer are modelled by explicit event
traces.  Asynchronous JS code is sequential per request, so each handler
becomes a pure function from the request and the current store to a
trace of external calls, the new store and a response.
-/

namespace Xalvion

/-! ## Data model (`category.model.js`) -/

/-- An embedded image sub-document (`imageSchema`).  `type` is kept as a
plain string because the controller assigns the multipart field name to
it.  `id` is the optional media-store asset identifier used by the
controller to request deletion (`if (img.id) cloudinary.uploader.destroy`). -/
structure Image where
  url : String
  altText : String
  type : String
  id : Option String
deriving Repr, DecidableEq

/-- A user document, as far as the controller needs it: `populate
("createdBy", "name email")` resolves a user id to its name and email. -/
structure User where
  id : Nat
  name : String
  email : String
deriving Repr, DecidableEq

/-- A stored category document (`categorySchema`): the fields the claims
depend on.  `parent` is a nullable reference; `createdBy` a required
user reference. -/
structure StoredCat where
  id : Nat
  name : String
  slug : String
  parent : Option Nat
  images : List Image
  createdBy : Nat
deriving Repr, DecidableEq

/-! ## Slug generation

`createSlug` lives in `src/utils/slug.js`, which is not among the
sources; it is modelled from the spec.  The uniqueness loop of
`categorySchema.pre("save")` is embedded below as `assignSlug`. -/

/-- Modelled from the spec: one character of the name→slug
transformation — letters and digits are lower-cased, every other
character (whitespace, punctuation) becomes a hyphen. -/
def slugChar (c : Char) : Char :=
  if c.isAlphanum then c.toLower else '-'

/-- Collapse runs of hyphens to a single hyphen. -/
def dedupDashes : List Char → List Char
  | [] => []
  | c :: rest =>
    if c = '-' then
      match dedupDashes rest with
      | '-' :: r => '-' :: r
      | r => '-' :: r
    else c :: dedupDashes rest

/-- Drop hyphens at both ends. -/
def trimDashes (l : List Char) : List Char :=
  ((l.dropWhile (· = '-')).reverse.dropWhile (· = '-')).reverse

/-- Modelled from the spec: `createSlug` (`src/utils/slug.js` is not
among the sources) — lower-casing, whitespace/punctuation → hyphens,
trimming. -/
def createSlug (name : String) : String :=
  ⟨trimDashes (dedupDashes (name.data.map slugChar))⟩

/-- `findOne({ slug })` against the store: is some stored document's
slug equal to `s`? -/
def slugTaken (store : List StoredCat) (s : String) : Bool :=
  store.any (fun c => c.slug == s)

/-- The candidate `` `${createSlug(this.name)}-${count}` `` of the
uniqueness loop. -/
def suffixedSlug (base : String) (k : Nat) : String :=
  base ++ "-" ++ Nat.repr k

/-- The `while (slugExists)` loop of `categorySchema.pre("save")`: try
`base-k`, `base-(k+1)`, … until a free slug is found.  The JS loop is
unbounded; here it carries fuel, and `store.length + 1` fuel is proved
sufficient below. -/
def findFreeSlug (store : List StoredCat) (base : String) : Nat → Nat → String
  | 0, k => suffixedSlug base k
  | fuel + 1, k =>
    if slugTaken store (suffixedSlug base k) then
      findFreeSlug store base fuel (k + 1)
    else suffixedSlug base k

/-- The slug computed by `categorySchema.pre("save")` for a document
whose name was modified: `createSlug(name)` if free, else the first
free suffixed candidate. -/
def assignSlug (store : List StoredCat) (name : String) : String :=
  if slugTaken store (createSlug name) then
    findFreeSlug store (createSlug name) (store.length + 1) 1
  else createSlug name

/-! ### Injectivity of decimal rendering

The uniqueness loop renders the counter with a JS template literal;
the embedding uses `Nat.repr`.  The pigeonhole argument for fuel
sufficiency needs the candidates `base-1`, `base-2`, … to be pairwise
distinct, hence injectivity of `Nat.repr`, proved here through the
value of a digit string. -/

/-- Numeric value of a digit character. -/
def digitVal (c : Char) : Nat := c.toNat - 48

/-- Value of a big-endian digit string. -/
def charsVal (l : List Char) : Nat :=
  l.foldl (fun a c => 10 * a + digitVal c) 0

/-! ## The controller (`category.controller.js`)

Each handler becomes a pure function of the request data and the
current store.  External calls (cloudinary deletions, persistence
writes) are recorded in an event trace, in program order. -/

/-- An uploaded file as multer leaves it on the request: the stored
path and the multipart field name. -/
structure UploadedFile where
  path : String
  fieldname : String
deriving Repr, DecidableEq

/-- The client-controllable `req.body` fields the claims depend on;
`none` models an absent field. -/
structure Body where
  name : Option String
  slug : Option String
  parent : Option (Option Nat)
  altText : Option String
deriving Repr, DecidableEq

/-- `req.files.map(file => ({ url: file.path, altText: req.body.altText
|| "", type: file.fieldname }))` — the image list built from the
uploaded files.  `altText.getD ""` models `req.body.altText || ""`
(an absent or empty field both yield the empty string). -/
def imagesFromFiles (files : List UploadedFile) (altText : Option String) :
    List Image :=
  files.map (fun f =>
    { url := f.path, altText := altText.getD "", type := f.fieldname, id := none })

/-- One external call issued by a handler. -/
inductive Event where
  | mediaDelete (assetId : String)
  | dbCreate (id : Nat)
  | dbUpdate (id : Nat)
  | dbDelete (id : Nat)
deriving Repr, DecidableEq

/-- A typed operational error (`AppError(message, statusCode)`). -/
structure AppError where
  statusCode : Nat
  message : String
deriving Repr, DecidableEq

/-- Outcome of one handler run: the trace of external calls, the store
after the run, and the response payload or error. -/
structure RunResult (α : Type) [DecidableEq α] where
  trace : List Event
  store : List StoredCat
  result : Except AppError α

instance {α : Type} [DecidableEq α] : DecidableEq (Except AppError α) := fun a b =>
  match a, b with
  | .error e, .error e' => decidable_of_iff (e = e') (by simp)
  | .ok x, .ok y => decidable_of_iff (x = y) (by simp)
  | .error _, .ok _ => isFalse (by simp)
  | .ok _, .error _ => isFalse (by simp)

instance {α : Type} [DecidableEq α] : DecidableEq (RunResult α) := fun a b =>
  decidable_of_iff (a.trace = b.trace ∧ a.store = b.store ∧ a.result = b.result)
    (by cases a; cases b; simp_all)

/-- `Category.findById(id)`. -/
def findById (store : List StoredCat) (id : Nat) : Option StoredCat :=
  store.find? (fun c => c.id == id)

/-- `findByIdAndUpdate(id, req.body, { new: true, runValidators: true })`
applied to one document: body fields overwrite the stored ones.  This
update path runs no save middleware, so the slug is **not** re-derived
from the name — `slug` changes only if the body itself carries one. -/
def applyBody (body : Body) (images : Option (List Image)) (c : StoredCat) :
    StoredCat :=
  { c with
    name := body.name.getD c.name
    slug := body.slug.getD c.slug
    parent := body.parent.getD c.parent
    images := images.getD c.images }

/-- `createCategory`: build images from the uploaded files, force
`createdBy` to the acting user, then `Category.create(req.body)` — the
`pre("save")` hook runs (the name was just set, hence modified) and
assigns the derived slug, overwriting any client-supplied slug.  A
missing name is a schema validation failure. -/
def createCategoryRun (store : List StoredCat) (body : Body)
    (files : List UploadedFile) (userId newId : Nat) : RunResult StoredCat :=
  match body.name with
  | none => ⟨[], store, .error ⟨500, "A category must have a name"⟩⟩
  | some nm =>
    let images := if files.isEmpty then [] else imagesFromFiles files body.altText
    let doc : StoredCat :=
      { id := newId, name := nm, slug := assignSlug store nm,
        parent := body.parent.getD none, images := images, createdBy := userId }
    ⟨[.dbCreate newId], store ++ [doc], .ok doc⟩

/-- `updateCategory`: 404 if `findById` misses; otherwise, when files
were uploaded, destroy each existing image that carries an asset id
(one cloudinary call per image, in order) and build the replacement
image list; finally `findByIdAndUpdate` writes the body. -/
def updateCategoryRun (store : List StoredCat) (reqId : Nat) (body : Body)
    (files : List UploadedFile) : RunResult StoredCat :=
  match findById store reqId with
  | none => ⟨[], store, .error ⟨404, "No category found with that ID"⟩⟩
  | some cat =>
    let dels := if files.isEmpty then []
      else (cat.images.filterMap (fun i => i.id)).map Event.mediaDelete
    let newImages : Option (List Image) :=
      if files.isEmpty then none else some (imagesFromFiles files body.altText)
    let updated := applyBody body newImages cat
    ⟨dels ++ [.dbUpdate reqId],
     store.map (fun c => if c.id = reqId then updated else c),
     .ok updated⟩

/-- `deleteCategory`: 404 if `findById` misses; otherwise destroy each
image carrying an asset id, then `findByIdAndDelete`. -/
def deleteCategoryRun (store : List StoredCat) (reqId : Nat) : RunResult Unit :=
  match findById store reqId with
  | none => ⟨[], store, .error ⟨404, "No category found with that ID"⟩⟩
  | some cat =>
    ⟨(cat.images.filterMap (fun i => i.id)).map Event.mediaDelete
        ++ [.dbDelete reqId],
     store.filter (fun c => c.id ≠ reqId), .ok ()⟩

/-- `updateSubCategory`: same logic as `updateCategory` (the source
repeats it verbatim), with the subcategory 404 message. -/
def updateSubCategoryRun (store : List StoredCat) (reqId : Nat) (body : Body)
    (files : List UploadedFile) : RunResult StoredCat :=
  match findById store reqId with
  | none => ⟨[], store, .error ⟨404, "No subcategory found with that ID"⟩⟩
  | some cat =>
    let dels := if files.isEmpty then []
      else (cat.images.filterMap (fun i => i.id)).map Event.mediaDelete
    let newImages : Option (List Image) :=
      if files.isEmpty then none else some (imagesFromFiles files body.altText)
    let updated := applyBody body newImages cat
    ⟨dels ++ [.dbUpdate reqId],
     store.map (fun c => if c.id = reqId then updated else c),
     .ok updated⟩

/-- `deleteSubCategory`: same logic as `deleteCategory`, with the
subcategory 404 message. -/
def deleteSubCategoryRun (store : List StoredCat) (reqId : Nat) : RunResult Unit :=
  match findById store reqId with
  | none => ⟨[], store, .error ⟨404, "No subcategory found with that ID"⟩⟩
  | some cat =>
    ⟨(cat.images.filterMap (fun i => i.id)).map Event.mediaDelete
        ++ [.dbDelete reqId],
     store.filter (fun c => c.id ≠ reqId), .ok ()⟩

/-! ## Recursive tree expansion (`populateChildrenRecursively`) -/

/-- The `children` virtual: stored documents whose `parent` is this
document's id. -/
def childrenOf (store : List StoredCat) (id : Nat) : List StoredCat :=
  store.filter (fun c => c.parent == some id)

/-- `populate("createdBy", "name email")`: resolve a user reference. -/
def lookupUser (users : List User) (uid : Nat) : Option User :=
  users.find? (fun u => u.id == uid)

/-- The result of relationship expansion: a document with its creator
resolved and its `children` virtual filled in — structurally always a
list, possibly empty. -/
inductive CatTree where
  | node (cat : StoredCat) (creator : Option User) (children : List CatTree)

/-- Root document of an expanded tree. -/
def CatTree.cat : CatTree → StoredCat
  | .node c _ _ => c

/-- Resolved creator at the root of an expanded tree. -/
def CatTree.creator : CatTree → Option User
  | .node _ u _ => u

/-- Children of the root of an expanded tree. -/
def CatTree.children : CatTree → List CatTree
  | .node _ _ ch => ch

/-- `populateChildrenRecursively(category)`: expand the `children`
virtual (each child with its creator resolved) and recurse into every
child.  The JS recursion is unbounded and relies on the parent/child
relation being acyclic; the embedding carries fuel, and the theorems
below show the result is fuel-independent from `store.length` on when
the relation is acyclic. -/
def populateChildrenRecursively (store : List StoredCat) (users : List User) :
    Nat → StoredCat → CatTree
  | 0, cat => .node cat (lookupUser users cat.createdBy) []
  | fuel + 1, cat =>
    .node cat (lookupUser users cat.createdBy)
      ((childrenOf store cat.id).map (populateChildrenRecursively store users fuel))

/-- `getCategory`: `findOne({ slug })`, 404 when it misses, then full
recursive expansion of the matched document. -/
def getCategoryRun (store : List StoredCat) (users : List User)
    (slug : String) : Except AppError CatTree :=
  match store.find? (fun c => c.slug == slug) with
  | none => .error ⟨404, "No category found with that slug"⟩
  | some cat => .ok (populateChildrenRecursively store users store.length cat)

/-! ## Subcategory listing (`getAllSubCategories`) -/

/-- Modelled from the spec: sorting as `APIFeatures.sort` performs it
(`src/utils/apiFeatures.js` is not among the sources) — a stable sort
of the query results by a requested comparison; insertion of one
element. -/
def insertSorted (le : StoredCat → StoredCat → Bool) (x : StoredCat) :
    List StoredCat → List StoredCat
  | [] => [x]
  | y :: ys => if le x y then x :: y :: ys else y :: insertSorted le x ys

/-- Modelled from the spec: the sort applied by `APIFeatures.sort`
(membership-preserving stable insertion sort). -/
def sortDocs (le : StoredCat → StoredCat → Bool) :
    List StoredCat → List StoredCat
  | [] => []
  | x :: xs => insertSorted le x (sortDocs le xs)

/-- Modelled from the spec: `APIFeatures.paginate`
(`src/utils/apiFeatures.js` is not among the sources) — page-based
pagination with skip `(page - 1) * limit` and the page size as limit. -/
def paginateDocs (page limit : Nat) (l : List StoredCat) : List StoredCat :=
  (l.drop ((page - 1) * limit)).take limit

/-- `getAllSubCategories`: an **empty** filter when no `parentId` query
parameter is present (`const filter = {}`), else `{ parent: parentId }`;
`countDocuments(filter)` is taken before sorting and pagination. -/
def getAllSubCategoriesRun (store : List StoredCat) (parentId : Option Nat)
    (le : StoredCat → StoredCat → Bool) (page limit : Nat) :
    List StoredCat × Nat :=
  let matching := store.filter (fun c =>
    match parentId with
    | some pid => c.parent == some pid
    | none => true)
  let total := matching.length
  (paginateDocs page limit (sortDocs le matching), total)

/-! ## Concrete stores for the witnesses -/

/-- A concrete store holding one document whose slug is `shoes`. -/
def demoStore : List StoredCat :=
  [{ id := 1, name := "Shoes", slug := "shoes", parent := none,
     images := [], createdBy := 1 }]


/-! ### Observations on expanded trees -/

mutual

/-- All document ids in an expanded tree, root first. -/
def CatTree.ids : CatTree → List Nat
  | .node c _ ch => c.id :: CatTree.idsList ch

/-- Document ids of a list of expanded trees. -/
def CatTree.idsList : List CatTree → List Nat
  | [] => []
  | t :: ts => t.ids ++ CatTree.idsList ts

end

mutual

/-- All nodes (subtrees) of an expanded tree, root included. -/
def CatTree.nodes : CatTree → List CatTree
  | .node c u ch => .node c u ch :: CatTree.nodesList ch

/-- Nodes of a list of expanded trees. -/
def CatTree.nodesList : List CatTree → List CatTree
  | [] => []
  | t :: ts => t.nodes ++ CatTree.nodesList ts

end

/-! ### The stored parent/child relation -/

/-- One stored parent/child edge: the store holds a document with id
`b` whose `parent` is `a`. -/
def ParentLink (store : List StoredCat) (a b : Nat) : Prop :=
  ∃ c ∈ store, c.id = b ∧ c.parent = some a

/-- `d` is a strict descendant of `a` in the stored relation. -/
def Desc (store : List StoredCat) : Nat → Nat → Prop :=
  Relation.TransGen (ParentLink store)

/-- Acyclicity of the stored parent/child relation, phrased as the
existence of a rank function increasing from parent to child and — the
store being finite — bounded by `store.length`. -/
def Acyclic (store : List StoredCat) : Prop :=
  ∃ r : Nat → Nat,
    (∀ c ∈ store, ∀ p, c.parent = some p → r p < r c.id) ∧
    (∀ c ∈ store, r c.id < store.length)

/-- Root of a three-level concrete store. -/
def demoTreeA : StoredCat :=
  { id := 1, name := "A", slug := "a", parent := none, images := [], createdBy := 1 }

/-- Middle node of the three-level concrete store. -/
def demoTreeB : StoredCat :=
  { id := 2, name := "B", slug := "b", parent := some 1, images := [], createdBy := 1 }

/-- Leaf of the three-level concrete store. -/
def demoTreeC : StoredCat :=
  { id := 3, name := "C", slug := "c", parent := some 2, images := [], createdBy := 1 }

/-- A three-level concrete store: `A` (id 1) ← `B` (id 2) ← `C` (id 3). -/
def demoTreeStore : List StoredCat := [demoTreeA, demoTreeB, demoTreeC]

/-- One user record for the expansion witnesses. -/
def demoUsers : List User := [{ id := 1, name := "Admin", email := "a@b.c" }]

/-- A stored document carrying one image with an asset id and one
without. -/
def demoCatImg : StoredCat :=
  { id := 2, name := "Bags", slug := "bags", parent := none,
    images := [{ url := "u1", altText := "x", type := "thumbnail", id := some "asset1" },
               { url := "u2", altText := "y", type := "banner", id := none }],
    createdBy := 1 }

/-- A store holding `demoCatImg`. -/
def demoStoreImg : List StoredCat := [demoCatImg]

/-- A request body with every client field absent. -/
def emptyBody : Body :=
  { name := none, slug := none, parent := none, altText := none }

/-- One uploaded file. -/
def demoFile : UploadedFile := { path := "p1", fieldname := "thumbnail" }

/-- A body that only renames the category. -/
def bodyRename : Body :=
  { name := some "Boots", slug := none, parent := none, altText := none }

/-- A body carrying only a client-chosen slug. -/
def bodySlugA : Body :=
  { name := none, slug := some "injected", parent := none, altText := none }

/-- A body carrying a different client-chosen slug. -/
def bodySlugB : Body :=
  { name := none, slug := some "other", parent := none, altText := none }

/-! ## Theorems -/

theorem digitVal_digitChar {m : Nat} (h : m < 10) :
    digitVal (Nat.digitChar m) = m := by
  interval_cases m <;> decide

theorem charsVal_append_singleton (l : List Char) (c : Char) :
    charsVal (l ++ [c]) = 10 * charsVal l + digitVal c := by
  simp [charsVal, List.foldl_append]

theorem toDigitsCore_spec :
    ∀ (fuel n : Nat) (ds : List Char), n < fuel →
      ∃ dl, Nat.toDigitsCore 10 fuel n ds = dl ++ ds ∧ charsVal dl = n := by
  intro fuel
  induction fuel with
  | zero => intro n ds h; omega
  | succ fuel ih =>
    intro n ds _
    simp only [Nat.toDigitsCore]
    by_cases h10 : n / 10 = 0
    · have hn10 : n < 10 := by omega
      refine ⟨[Nat.digitChar (n % 10)], by simp [h10], ?_⟩
      have hone : charsVal [Nat.digitChar (n % 10)]
          = digitVal (Nat.digitChar (n % 10)) := by
        simp [charsVal]
      rw [hone, Nat.mod_eq_of_lt hn10, digitVal_digitChar hn10]
    · have hlt : n / 10 < fuel := by
        have : n / 10 < n := Nat.div_lt_self (by omega) (by omega)
        omega
      obtain ⟨dl, heq, hval⟩ := ih (n / 10) (Nat.digitChar (n % 10) :: ds) hlt
      rw [if_neg h10]
      refine ⟨dl ++ [Nat.digitChar (n % 10)], by simp [heq], ?_⟩
      rw [charsVal_append_singleton, hval,
        digitVal_digitChar (Nat.mod_lt n (by omega))]
      omega

theorem charsVal_toDigits (n : Nat) : charsVal (Nat.toDigits 10 n) = n := by
  obtain ⟨dl, heq, hval⟩ := toDigitsCore_spec (n + 1) n [] (Nat.lt_succ_self n)
  simp only [Nat.toDigits, heq, List.append_nil]
  exact hval

theorem natRepr_injective : Function.Injective Nat.repr := by
  intro a b h
  have : charsVal (Nat.toDigits 10 a) = charsVal (Nat.toDigits 10 b) := by
    have hd : (Nat.toDigits 10 a) = (Nat.toDigits 10 b) := by
      have := congrArg String.data h
      simpa [Nat.repr, List.asString] using this
    rw [hd]
  rwa [charsVal_toDigits, charsVal_toDigits] at this

theorem string_append_data (s t : String) : (s ++ t).data = s.data ++ t.data := by
  cases s; cases t; rfl

theorem suffixedSlug_injective (base : String) :
    Function.Injective (suffixedSlug base) := by
  intro a b h
  apply natRepr_injective
  have hd : base.data ++ ('-' :: a.repr.data) = base.data ++ ('-' :: b.repr.data) := by
    have h0 := congrArg String.data h
    simpa [suffixedSlug, string_append_data] using h0
  have h1 := List.append_cancel_left hd
  have h2 : a.repr.data = b.repr.data := by simpa using h1
  exact String.ext h2

/-! ### The uniqueness loop finds the first free suffix -/

theorem findFreeSlug_spec (store : List StoredCat) (base : String) :
    ∀ (fuel k : Nat),
      (∃ j, k ≤ j ∧ j ≤ k + fuel ∧ slugTaken store (suffixedSlug base j) = false) →
      ∃ m, k ≤ m ∧ findFreeSlug store base fuel k = suffixedSlug base m ∧
        slugTaken store (suffixedSlug base m) = false ∧
        ∀ j, k ≤ j → j < m → slugTaken store (suffixedSlug base j) = true := by
  intro fuel
  induction fuel with
  | zero =>
    intro k ⟨j, hkj, hjk, hfree⟩
    have : j = k := by omega
    subst this
    exact ⟨j, le_refl _, rfl, hfree, fun i h1 h2 => absurd (lt_of_le_of_lt h1 h2) (lt_irrefl _)⟩
  | succ fuel ih =>
    intro k ⟨j, hkj, hjk, hfree⟩
    simp only [findFreeSlug]
    cases htk : slugTaken store (suffixedSlug base k) with
    | false =>
      exact ⟨k, le_refl _, by simp, htk,
        fun i h1 h2 => absurd (lt_of_le_of_lt h1 h2) (lt_irrefl _)⟩
    | true =>
      have hjne : j ≠ k := by
        intro h; rw [h] at hfree; rw [htk] at hfree; exact Bool.noConfusion hfree
      obtain ⟨m, hm1, hm2, hm3, hm4⟩ := ih (k + 1) ⟨j, by omega, by omega, hfree⟩
      refine ⟨m, by omega, by simp [hm2], hm3, ?_⟩
      intro i h1 h2
      rcases Nat.eq_or_lt_of_le h1 with heq | hlt
      · rw [← heq]; exact htk
      · exact hm4 i hlt h2

/-- Among the `store.length + 2` candidates `base-1`, …,
`base-(store.length + 2)` at least one is free: they are pairwise
distinct strings, and the store holds only `store.length` slugs. -/
theorem exists_free_suffix (store : List StoredCat) (base : String) :
    ∃ j, 1 ≤ j ∧ j ≤ 1 + (store.length + 1) ∧
      slugTaken store (suffixedSlug base j) = false := by
  by_contra hall
  push_neg at hall
  have htaken : ∀ j, 1 ≤ j → j ≤ store.length + 2 →
      slugTaken store (suffixedSlug base j) = true := by
    intro j h1 h2
    have := hall j h1 (by omega)
    revert this
    cases slugTaken store (suffixedSlug base j) <;> simp
  set S : Finset String := (store.map (fun c => c.slug)).toFinset with hS
  have hcardS : S.card ≤ store.length := by
    calc S.card ≤ (store.map (fun c => c.slug)).length := List.toFinset_card_le _
    _ = store.length := List.length_map _ _
  set C : Finset String :=
    (Finset.range (store.length + 2)).image (fun i => suffixedSlug base (i + 1)) with hC
  have hCcard : C.card = store.length + 2 := by
    rw [hC, Finset.card_image_of_injective _ (fun a b h => by
      have := suffixedSlug_injective base h; omega)]
    exact Finset.card_range _
  have hsub : C ⊆ S := by
    intro x hx
    rw [hC] at hx
    obtain ⟨i, hi, hix⟩ := Finset.mem_image.mp hx
    have hi' : i < store.length + 2 := Finset.mem_range.mp hi
    have := htaken (i + 1) (by omega) (by omega)
    rw [hix] at this
    simp only [slugTaken, List.any_eq_true] at this
    obtain ⟨c, hc, hcx⟩ := this
    rw [hS]
    rw [List.mem_toFinset]
    exact List.mem_map.mpr ⟨c, hc, by simpa using hcx⟩
  have := Finset.card_le_card hsub
  omega

/-- **C1.** Slug assignment at creation: if the slugified name is not
the slug of any stored document the assigned slug is the slugified
name; otherwise it is the slugified name with the first free numeric
suffix, checked in order `-1`, `-2`, … (the outcome is a function of
the store contents and the name, hence deterministic in creation
order). -/
theorem assignSlug_first_free (store : List StoredCat) (name : String) :
    (slugTaken store (createSlug name) = false →
      assignSlug store name = createSlug name) ∧
    (slugTaken store (createSlug name) = true →
      ∃ k, 1 ≤ k ∧
        assignSlug store name = suffixedSlug (createSlug name) k ∧
        slugTaken store (suffixedSlug (createSlug name) k) = false ∧
        ∀ j, 1 ≤ j → j < k →
          slugTaken store (suffixedSlug (createSlug name) j) = true) := by
  constructor
  · intro hfree
    simp [assignSlug, hfree]
  · intro htaken
    obtain ⟨m, hm1, hm2, hm3, hm4⟩ :=
      findFreeSlug_spec store (createSlug name) (store.length + 1) 1
        (exists_free_suffix store (createSlug name))
    exact ⟨m, hm1, by simp [assignSlug, htaken, hm2], hm3, hm4⟩

theorem assignSlug_first_free_witness :
    slugTaken demoStore (createSlug "Shoes") = true ∧
    ∃ k, 1 ≤ k ∧
      assignSlug demoStore "Shoes" = suffixedSlug (createSlug "Shoes") k ∧
      slugTaken demoStore (suffixedSlug (createSlug "Shoes") k) = false ∧
      ∀ j, 1 ≤ j → j < k →
        slugTaken demoStore (suffixedSlug (createSlug "Shoes") j) = true :=
  ⟨by decide, (assignSlug_first_free demoStore "Shoes").2 (by decide)⟩

/-! ### Helper lemmas on store lookups and the listing pipeline -/

theorem findById_id_eq {store : List StoredCat} {reqId : Nat} {cat : StoredCat}
    (h : findById store reqId = some cat) : cat.id = reqId := by
  have h' : store.find? (fun c => c.id == reqId) = some cat := h
  simpa using List.find?_some h'

theorem findById_replace {store : List StoredCat} {reqId : Nat}
    {cat updated : StoredCat} (h : findById store reqId = some cat)
    (hu : updated.id = reqId) :
    findById (store.map (fun c => if c.id = reqId then updated else c)) reqId
      = some updated := by
  induction store with
  | nil => simp [findById] at h
  | cons c rest ih =>
    by_cases hc : c.id = reqId
    · simp [findById, hc, hu]
    · have h' : findById rest reqId = some cat := by
        have hcb : (c.id == reqId) = false := by simpa using hc
        simpa [findById, List.find?, hcb] using h
      have := ih h'
      have hcb : (c.id == reqId) = false := by simpa using hc
      simpa [findById, List.find?, hc, hcb] using this

theorem mem_insertSorted {le : StoredCat → StoredCat → Bool} {x a : StoredCat} :
    ∀ {l : List StoredCat}, a ∈ insertSorted le x l → a = x ∨ a ∈ l := by
  intro l
  induction l with
  | nil => intro h; simpa [insertSorted] using h
  | cons y ys ih =>
    intro h
    simp only [insertSorted] at h
    by_cases hle : le x y = true
    · rw [if_pos hle] at h
      rcases List.mem_cons.mp h with h | h
      · exact Or.inl h
      · exact Or.inr h
    · rw [if_neg hle] at h
      rcases List.mem_cons.mp h with h | h
      · exact Or.inr (h ▸ List.mem_cons_self y ys)
      · rcases ih h with h | h
        · exact Or.inl h
        · exact Or.inr (List.mem_cons_of_mem y h)

theorem mem_sortDocs {le : StoredCat → StoredCat → Bool} {a : StoredCat} :
    ∀ {l : List StoredCat}, a ∈ sortDocs le l → a ∈ l := by
  intro l
  induction l with
  | nil => intro h; simp [sortDocs] at h
  | cons x xs ih =>
    intro h
    rcases mem_insertSorted h with h | h
    · exact h ▸ List.mem_cons_self x xs
    · exact List.mem_cons_of_mem x (ih h)

theorem mem_paginateDocs {page limit : Nat} {l : List StoredCat} {a : StoredCat}
    (h : a ∈ paginateDocs page limit l) : a ∈ l :=
  List.mem_of_mem_drop (List.mem_of_mem_take h)

/-! ### C4 — update replaces the image list wholesale -/

/-- **C4.** For every update of an existing category in which new files
are supplied: the trace is exactly one media-store deletion per
existing image carrying an asset identifier (in order), all of them
before the single persistence write, and the stored image sequence
after the update is exactly the sequence built from the uploaded
files. -/
theorem updateCategory_replaces_images (store : List StoredCat) (reqId : Nat)
    (body : Body) (files : List UploadedFile) (cat : StoredCat)
    (hfind : findById store reqId = some cat) (hfiles : files.isEmpty = false) :
    (updateCategoryRun store reqId body files).trace
      = ((cat.images.filterMap (fun i => i.id)).map Event.mediaDelete)
        ++ [Event.dbUpdate reqId] ∧
    ∃ updated, (updateCategoryRun store reqId body files).result = .ok updated ∧
      updated.images = imagesFromFiles files body.altText ∧
      findById (updateCategoryRun store reqId body files).store reqId
        = some updated := by
  refine ⟨by simp [updateCategoryRun, hfind, hfiles], ?_⟩
  refine ⟨applyBody body (some (imagesFromFiles files body.altText)) cat,
    by simp [updateCategoryRun, hfind, hfiles], by simp [applyBody], ?_⟩
  have hid : (applyBody body (some (imagesFromFiles files body.altText)) cat).id
      = reqId := by
    simpa [applyBody] using findById_id_eq hfind
  simp only [updateCategoryRun, hfind, hfiles]
  exact findById_replace hfind hid

theorem updateCategory_replaces_images_witness :
    (updateCategoryRun demoStoreImg 2 emptyBody [demoFile]).trace
      = ((demoCatImg.images.filterMap (fun i => i.id)).map Event.mediaDelete)
        ++ [Event.dbUpdate 2] ∧
    ∃ updated, (updateCategoryRun demoStoreImg 2 emptyBody [demoFile]).result
        = .ok updated ∧
      updated.images = imagesFromFiles [demoFile] emptyBody.altText ∧
      findById (updateCategoryRun demoStoreImg 2 emptyBody [demoFile]).store 2
        = some updated :=
  updateCategory_replaces_images demoStoreImg 2 emptyBody [demoFile] demoCatImg
    (by decide) (by decide)

/-! ### C5 — slug (re)derivation happens on save, not on update -/

/-- Counterexample to C5 as stated: updating the category named
`Shoes` (slug `shoes`) to the name `Boots` stores slug `shoes`
unchanged, while re-derivation from the new name would give `boots`. -/
theorem update_does_not_rederive_slug_cex :
    (updateCategoryRun demoStore 1 bodyRename []).result
      = .ok { id := 1, name := "Boots", slug := "shoes", parent := none,
              images := [], createdBy := 1 } ∧
    assignSlug demoStore "Boots" = "boots" ∧
    ("shoes" : String) ≠ "boots" := by decide

/-- **C5 (amended).** The slug is derived from the name (slugification
plus collision suffixing) when a document is *saved* — i.e. at
creation; an update through `findByIdAndUpdate` runs no save
middleware, so a name change there leaves the stored slug unchanged
(when the body supplies no slug of its own). -/
theorem slug_derived_on_create_not_on_update (store : List StoredCat)
    (body : Body) (files : List UploadedFile) (userId newId reqId : Nat)
    (nm : String) (hnm : body.name = some nm) (hslug : body.slug = none) :
    (∃ doc, (createCategoryRun store body files userId newId).result = .ok doc ∧
      doc.slug = assignSlug store nm) ∧
    (∀ cat, findById store reqId = some cat →
      ∃ doc, (updateCategoryRun store reqId body files).result = .ok doc ∧
        doc.slug = cat.slug) := by
  constructor
  · refine ⟨{ id := newId, name := nm, slug := assignSlug store nm,
              parent := body.parent.getD none,
              images := if files.isEmpty then []
                        else imagesFromFiles files body.altText,
              createdBy := userId }, ?_, rfl⟩
    simp [createCategoryRun, hnm]
  · intro cat hfind
    refine ⟨applyBody body (if files.isEmpty then none
        else some (imagesFromFiles files body.altText)) cat, ?_, ?_⟩
    · simp [updateCategoryRun, hfind]
    · simp [applyBody, hslug]

theorem slug_derived_on_create_not_on_update_witness :
    (∃ doc, (createCategoryRun demoStore bodyRename [] 1 7).result = .ok doc ∧
      doc.slug = assignSlug demoStore "Boots") ∧
    (∀ cat, findById demoStore 1 = some cat →
      ∃ doc, (updateCategoryRun demoStore 1 bodyRename []).result = .ok doc ∧
        doc.slug = cat.slug) :=
  slug_derived_on_create_not_on_update demoStore bodyRename [] 1 7 1 "Boots"
    (by decide) (by decide)

/-! ### C6 — whether the slug can be user-supplied -/

/-- Counterexample to C6 as stated: two update runs differing only in
the client-supplied slug field store different slugs — the update path
writes the client value verbatim. -/
theorem slug_user_suppliable_on_update_cex :
    (updateCategoryRun demoStore 1 bodySlugA []).result
      = .ok { id := 1, name := "Shoes", slug := "injected", parent := none,
              images := [], createdBy := 1 } ∧
    (updateCategoryRun demoStore 1 bodySlugB []).result
      = .ok { id := 1, name := "Shoes", slug := "other", parent := none,
              images := [], createdBy := 1 } := by decide

/-- **C6 (amended).** On *create* the stored slug is the auto-derived
value: two creations differing only in the client-supplied slug field
behave identically.  On *update*, however, a client-supplied slug is
stored verbatim. -/
theorem slug_auto_on_create_user_on_update (store : List StoredCat)
    (body : Body) (files : List UploadedFile) (userId newId reqId : Nat)
    (s₁ s₂ : Option String) :
    createCategoryRun store { body with slug := s₁ } files userId newId
      = createCategoryRun store { body with slug := s₂ } files userId newId ∧
    (∀ s cat, findById store reqId = some cat →
      ∃ doc, (updateCategoryRun store reqId { body with slug := some s }
          files).result = .ok doc ∧ doc.slug = s) := by
  constructor
  · cases hn : body.name <;> simp [createCategoryRun, hn]
  · intro s cat hfind
    refine ⟨applyBody { body with slug := some s } (if files.isEmpty then none
        else some (imagesFromFiles files body.altText)) cat, ?_, ?_⟩
    · simp [updateCategoryRun, hfind]
    · simp [applyBody]

theorem slug_auto_on_create_user_on_update_witness :
    createCategoryRun demoStore { emptyBody with slug := some "a" } [] 1 7
      = createCategoryRun demoStore { emptyBody with slug := some "b" } [] 1 7 ∧
    (∀ s cat, findById demoStore 1 = some cat →
      ∃ doc, (updateCategoryRun demoStore 1 { emptyBody with slug := some s }
          []).result = .ok doc ∧ doc.slug = s) :=
  slug_auto_on_create_user_on_update demoStore emptyBody [] 1 7 1
    (some "a") (some "b")

/-! ### C7 — what the subcategory listing returns without a filter -/

/-- Counterexample to C7 as stated: with no `parentId` query the filter
is empty (`const filter = {}`), so the listing returns the top-level
document of `demoStore`, whose `parent` is null. -/
theorem subcategory_listing_returns_toplevel_cex :
    (getAllSubCategoriesRun demoStore none (fun _ _ => true) 1 10).1
      = [{ id := 1, name := "Shoes", slug := "shoes", parent := none,
           images := [], createdBy := 1 }] ∧
    ({ id := 1, name := "Shoes", slug := "shoes", parent := none,
       images := [], createdBy := 1 } : StoredCat).parent = none := by decide

/-- **C7 (amended).** Every document returned by the subcategory
listing matches the request's filter: with a `parentId` filter every
returned document's `parent` equals it; with no filter the listing
returns stored category documents regardless of `parent` — including
top-level ones, whose `parent` is null. -/
theorem subcategory_listing_matches_filter (store : List StoredCat)
    (le : StoredCat → StoredCat → Bool) (page limit : Nat) (pid : Nat) :
    (∀ d ∈ (getAllSubCategoriesRun store (some pid) le page limit).1,
      d.parent = some pid) ∧
    (∀ d ∈ (getAllSubCategoriesRun store none le page limit).1, d ∈ store) := by
  constructor
  · intro d hd
    have hmem : d ∈ store.filter (fun c => c.parent == some pid) :=
      mem_sortDocs (mem_paginateDocs hd)
    simpa using List.of_mem_filter hmem
  · intro d hd
    have hmem : d ∈ store.filter (fun _ => true) :=
      mem_sortDocs (mem_paginateDocs hd)
    exact List.mem_of_mem_filter hmem

theorem subcategory_listing_matches_filter_witness :
    (∀ d ∈ (getAllSubCategoriesRun demoStore (some 1) (fun _ _ => true) 1 10).1,
      d.parent = some 1) ∧
    (∀ d ∈ (getAllSubCategoriesRun demoStore none (fun _ _ => true) 1 10).1,
      d ∈ demoStore) :=
  subcategory_listing_matches_filter demoStore (fun _ _ => true) 1 10 1

/-! ### C8 — NotFound is early and effect-free -/

/-- **C8.** For an update or delete of a category or subcategory whose
id matches no stored document, and a fetch by a slug matching no
document, the operation fails with HTTP 404, no media-store deletion
and no persistence write is issued (empty trace), and the store is
unchanged. -/
theorem notFound_early_and_effect_free (store : List StoredCat)
    (users : List User) (reqId : Nat) (slug : String) (body : Body)
    (files : List UploadedFile) (hmiss : findById store reqId = none)
    (hslug : store.find? (fun c => c.slug == slug) = none) :
    updateCategoryRun store reqId body files
      = ⟨[], store, .error ⟨404, "No category found with that ID"⟩⟩ ∧
    deleteCategoryRun store reqId
      = ⟨[], store, .error ⟨404, "No category found with that ID"⟩⟩ ∧
    updateSubCategoryRun store reqId body files
      = ⟨[], store, .error ⟨404, "No subcategory found with that ID"⟩⟩ ∧
    deleteSubCategoryRun store reqId
      = ⟨[], store, .error ⟨404, "No subcategory found with that ID"⟩⟩ ∧
    getCategoryRun store users slug
      = .error ⟨404, "No category found with that slug"⟩ := by
  refine ⟨?_, ?_, ?_, ?_, ?_⟩
  · simp [updateCategoryRun, hmiss]
  · simp [deleteCategoryRun, hmiss]
  · simp [updateSubCategoryRun, hmiss]
  · simp [deleteSubCategoryRun, hmiss]
  · simp [getCategoryRun, hslug]

theorem notFound_early_and_effect_free_witness :
    updateCategoryRun demoStore 9 emptyBody []
      = ⟨[], demoStore, .error ⟨404, "No category found with that ID"⟩⟩ ∧
    deleteCategoryRun demoStore 9
      = ⟨[], demoStore, .error ⟨404, "No category found with that ID"⟩⟩ ∧
    updateSubCategoryRun demoStore 9 emptyBody []
      = ⟨[], demoStore, .error ⟨404, "No subcategory found with that ID"⟩⟩ ∧
    deleteSubCategoryRun demoStore 9
      = ⟨[], demoStore, .error ⟨404, "No subcategory found with that ID"⟩⟩ ∧
    getCategoryRun demoStore [] "missing"
      = .error ⟨404, "No category found with that slug"⟩ :=
  notFound_early_and_effect_free demoStore [] 9 "missing" emptyBody []
    (by decide) (by decide)

/-! ### C9 — filtered subcategory listing and count -/

/-- **C9.** For a subcategory listing with a parent filter, every
returned document's `parent` equals the filter id, and the reported
total equals the number of stored documents matching the filter — for
every requested page and page size, since `countDocuments(filter)` is
evaluated before pagination. -/
theorem subcategory_listing_filtered_count (store : List StoredCat) (pid : Nat)
    (le : StoredCat → StoredCat → Bool) (page limit : Nat) :
    (∀ d ∈ (getAllSubCategoriesRun store (some pid) le page limit).1,
      d.parent = some pid) ∧
    (getAllSubCategoriesRun store (some pid) le page limit).2
      = (store.filter (fun c => c.parent == some pid)).length := by
  refine ⟨?_, rfl⟩
  intro d hd
  have hmem : d ∈ store.filter (fun c => c.parent == some pid) :=
    mem_sortDocs (mem_paginateDocs hd)
  simpa using List.of_mem_filter hmem

theorem subcategory_listing_filtered_count_witness :
    (∀ d ∈ (getAllSubCategoriesRun demoStoreImg (some 1) (fun _ _ => true) 2 5).1,
      d.parent = some 1) ∧
    (getAllSubCategoriesRun demoStoreImg (some 1) (fun _ _ => true) 2 5).2
      = (demoStoreImg.filter (fun c => c.parent == some 1)).length :=
  subcategory_listing_filtered_count demoStoreImg 1 (fun _ _ => true) 2 5

/-! ### C10 — one altText for the whole uploaded batch -/

/-- **C10.** In any create or update that supplies uploaded files,
every image record built from that request carries the same altText:
the request's single `altText` field if present, else the empty
string — so distinct per-image alt texts cannot be supplied. -/
theorem altText_shared_across_batch (store : List StoredCat) (body : Body)
    (files : List UploadedFile) (userId newId reqId : Nat)
    (hfiles : files.isEmpty = false) :
    (∀ doc, (createCategoryRun store body files userId newId).result = .ok doc →
      ∀ img ∈ doc.images, img.altText = body.altText.getD "") ∧
    (∀ doc, (updateCategoryRun store reqId body files).result = .ok doc →
      ∀ img ∈ doc.images, img.altText = body.altText.getD "") := by
  constructor
  · intro doc hdoc img himg
    cases hn : body.name with
    | none => simp [createCategoryRun, hn] at hdoc
    | some nm =>
      simp only [createCategoryRun, hn, hfiles] at hdoc
      have himages : doc.images = imagesFromFiles files body.altText := by
        cases hdoc with
        | refl => simp [hfiles]
      rw [himages] at himg
      obtain ⟨f, _, hf⟩ := List.mem_map.mp himg
      simpa using congrArg Image.altText hf.symm ▸ rfl
  · intro doc hdoc img himg
    cases hfind : findById store reqId with
    | none => simp [updateCategoryRun, hfind] at hdoc
    | some cat =>
      simp only [updateCategoryRun, hfind, hfiles] at hdoc
      have himages : doc.images = imagesFromFiles files body.altText := by
        cases hdoc with
        | refl => simp [applyBody, hfiles]
      rw [himages] at himg
      obtain ⟨f, _, hf⟩ := List.mem_map.mp himg
      simpa using congrArg Image.altText hf.symm ▸ rfl

theorem altText_shared_across_batch_witness :
    (∀ doc, (createCategoryRun demoStore bodyRename [demoFile] 1 7).result
        = .ok doc →
      ∀ img ∈ doc.images, img.altText = bodyRename.altText.getD "") ∧
    (∀ doc, (updateCategoryRun demoStore 1 bodyRename [demoFile]).result
        = .ok doc →
      ∀ img ∈ doc.images, img.altText = bodyRename.altText.getD "") :=
  altText_shared_across_batch demoStore bodyRename [demoFile] 1 7 1 (by decide)

/-! ### C2/C3 — lemmas on the expanded tree -/

theorem populate_zero (store : List StoredCat) (users : List User)
    (cat : StoredCat) :
    populateChildrenRecursively store users 0 cat
      = .node cat (lookupUser users cat.createdBy) [] := rfl

theorem populate_succ (store : List StoredCat) (users : List User)
    (fuel : Nat) (cat : StoredCat) :
    populateChildrenRecursively store users (fuel + 1) cat
      = .node cat (lookupUser users cat.createdBy)
          ((childrenOf store cat.id).map
            (populateChildrenRecursively store users fuel)) := rfl

theorem populate_cat (store : List StoredCat) (users : List User)
    (fuel : Nat) (cat : StoredCat) :
    (populateChildrenRecursively store users fuel cat).cat = cat := by
  cases fuel <;> rfl

theorem ids_node (c : StoredCat) (u : Option User) (ch : List CatTree) :
    (CatTree.node c u ch).ids = c.id :: CatTree.idsList ch := by
  simp [CatTree.ids]

theorem nodes_node (c : StoredCat) (u : Option User) (ch : List CatTree) :
    (CatTree.node c u ch).nodes = CatTree.node c u ch :: CatTree.nodesList ch := by
  simp [CatTree.nodes]

theorem mem_idsList {d : Nat} :
    ∀ {ts : List CatTree}, d ∈ CatTree.idsList ts ↔ ∃ t ∈ ts, d ∈ t.ids := by
  intro ts
  induction ts with
  | nil => simp [CatTree.idsList]
  | cons t ts ih => simp [CatTree.idsList, List.mem_append, ih]

theorem mem_nodesList {n : CatTree} :
    ∀ {ts : List CatTree}, n ∈ CatTree.nodesList ts ↔ ∃ t ∈ ts, n ∈ t.nodes := by
  intro ts
  induction ts with
  | nil => simp [CatTree.nodesList]
  | cons t ts ih => simp [CatTree.nodesList, List.mem_append, ih]

theorem mem_childrenOf {store : List StoredCat} {pid : Nat} {c : StoredCat} :
    c ∈ childrenOf store pid ↔ c ∈ store ∧ c.parent = some pid := by
  simp [childrenOf, List.mem_filter]

theorem root_mem_ids_populate (store : List StoredCat) (users : List User)
    (fuel : Nat) (cat : StoredCat) :
    cat.id ∈ (populateChildrenRecursively store users fuel cat).ids := by
  cases fuel <;> simp [populate_zero, populate_succ, ids_node]

theorem mem_ids_populate_succ {store : List StoredCat} {users : List User}
    {fuel : Nat} {cat : StoredCat} {d : Nat} :
    d ∈ (populateChildrenRecursively store users (fuel + 1) cat).ids ↔
      d = cat.id ∨ ∃ c ∈ childrenOf store cat.id,
        d ∈ (populateChildrenRecursively store users fuel c).ids := by
  rw [populate_succ, ids_node]
  simp [mem_idsList]

/-! ### C2/C3 — lemmas on the stored parent/child relation -/

theorem desc_rank_lt {store : List StoredCat} {r : Nat → Nat}
    (hr : ∀ c ∈ store, ∀ p, c.parent = some p → r p < r c.id)
    {a b : Nat} (h : Desc store a b) : r a < r b := by
  have h' : Relation.TransGen (ParentLink store) a b := h
  clear h
  induction h' with
  | single hpl =>
    obtain ⟨c, hc, rfl, hp⟩ := hpl
    exact hr c hc _ hp
  | tail _ hpl ih =>
    obtain ⟨c, hc, rfl, hp⟩ := hpl
    exact lt_trans ih (hr c hc _ hp)

theorem store_id_inj {store : List StoredCat}
    (hnd : (store.map (fun c => c.id)).Nodup) :
    ∀ c₁ ∈ store, ∀ c₂ ∈ store, c₁.id = c₂.id → c₁ = c₂ := by
  intro c₁ h₁ c₂ h₂ he
  exact List.inj_on_of_nodup_map hnd h₁ h₂ he

theorem parentLink_unique {store : List StoredCat}
    (hnd : (store.map (fun c => c.id)).Nodup) {a a' b : Nat}
    (h : ParentLink store a b) (h' : ParentLink store a' b) : a = a' := by
  obtain ⟨c, hc, hcb, hp⟩ := h
  obtain ⟨c', hc', hcb', hp'⟩ := h'
  have hcc : c = c' := store_id_inj hnd c hc c' hc' (by rw [hcb, hcb'])
  subst hcc
  have := hp.symm.trans hp'
  exact Option.some.inj this

theorem desc_comparable_aux {store : List StoredCat} {r : Nat → Nat}
    (hnd : (store.map (fun c => c.id)).Nodup)
    (hr : ∀ c ∈ store, ∀ p, c.parent = some p → r p < r c.id) :
    ∀ (n d a b : Nat), r d < n → Desc store a d → Desc store b d →
      a = b ∨ Desc store a b ∨ Desc store b a := by
  intro n
  induction n with
  | zero => intro d a b hd; exact absurd hd (Nat.not_lt_zero _)
  | succ n ih =>
    intro d a b hd had hbd
    obtain ⟨m, ham, hmd⟩ := (Relation.TransGen.tail'_iff).mp had
    obtain ⟨m', hbm, hmd'⟩ := (Relation.TransGen.tail'_iff).mp hbd
    have hmm : m = m' := parentLink_unique hnd hmd hmd'
    subst hmm
    have hrm : r m < r d := by
      obtain ⟨c, hc, hcd, hp⟩ := hmd
      have := hr c hc m hp
      rwa [hcd] at this
    rcases ham.cases_head with rfl | ⟨x, hax, hxm⟩
    · rcases hbm.cases_head with rfl | ⟨y, hby, hym⟩
      · exact Or.inl rfl
      · exact Or.inr (Or.inr (Relation.TransGen.head' hby hym))
    · rcases hbm.cases_head with rfl | ⟨y, hby, hym⟩
      · exact Or.inr (Or.inl (Relation.TransGen.head' hax hxm))
      · exact ih m a b (by omega) (Relation.TransGen.head' hax hxm)
          (Relation.TransGen.head' hby hym)

theorem desc_comparable {store : List StoredCat} {r : Nat → Nat}
    (hnd : (store.map (fun c => c.id)).Nodup)
    (hr : ∀ c ∈ store, ∀ p, c.parent = some p → r p < r c.id)
    {d a b : Nat} (had : Desc store a d) (hbd : Desc store b d) :
    a = b ∨ Desc store a b ∨ Desc store b a :=
  desc_comparable_aux hnd hr (r d + 1) d a b (Nat.lt_succ_self _) had hbd

theorem no_desc_to_sibling {store : List StoredCat} {r : Nat → Nat}
    (hnd : (store.map (fun c => c.id)).Nodup)
    (hr : ∀ c ∈ store, ∀ p, c.parent = some p → r p < r c.id)
    {pid : Nat} {c₁ c₂ : StoredCat}
    (h1 : c₁ ∈ childrenOf store pid) (h2 : c₂ ∈ childrenOf store pid) :
    ¬ Desc store c₂.id c₁.id := by
  intro hdesc
  obtain ⟨hc₁s, hp₁⟩ := mem_childrenOf.mp h1
  obtain ⟨hc₂s, hp₂⟩ := mem_childrenOf.mp h2
  obtain ⟨m, hrt, hml⟩ := (Relation.TransGen.tail'_iff).mp hdesc
  obtain ⟨e, he, heid, hep⟩ := hml
  have he1 : e = c₁ := store_id_inj hnd e he c₁ hc₁s heid
  subst he1
  have hm : m = pid := Option.some.inj (hep.symm.trans hp₁)
  subst hm
  rcases hrt.cases_head with heq | ⟨x, hx, hxp⟩
  · have := hr c₂ hc₂s m hp₂
    rw [heq] at this
    exact lt_irrefl _ this
  · have htg : Desc store c₂.id m := Relation.TransGen.head' hx hxp
    have hlt := desc_rank_lt hr htg
    have := hr c₂ hc₂s m hp₂
    omega

/-! ### C2/C3 — the expanded tree covers exactly the descendants -/

theorem mem_ids_populate_imp {store : List StoredCat} {users : List User} :
    ∀ (fuel : Nat) (cat : StoredCat) (d : Nat),
      d ∈ (populateChildrenRecursively store users fuel cat).ids →
      d = cat.id ∨ Desc store cat.id d := by
  intro fuel
  induction fuel with
  | zero =>
    intro cat d hd
    left
    simpa [populate_zero, ids_node, CatTree.idsList] using hd
  | succ fuel ih =>
    intro cat d hd
    rcases mem_ids_populate_succ.mp hd with rfl | ⟨c, hc, hdc⟩
    · exact Or.inl rfl
    · obtain ⟨hcs, hcp⟩ := mem_childrenOf.mp hc
      have hpl : ParentLink store cat.id c.id := ⟨c, hcs, rfl, hcp⟩
      rcases ih c d hdc with rfl | hdesc
      · exact Or.inr (Relation.TransGen.single hpl)
      · exact Or.inr (Relation.TransGen.head hpl hdesc)

theorem desc_mem_ids_populate {store : List StoredCat} {users : List User}
    {r : Nat → Nat} {B : Nat}
    (hr : ∀ c ∈ store, ∀ p, c.parent = some p → r p < r c.id)
    (hb : ∀ c ∈ store, r c.id < B) {a d : Nat} (h : Desc store a d) :
    ∀ (fuel : Nat) (cat : StoredCat), cat.id = a → B ≤ fuel + r a →
      d ∈ (populateChildrenRecursively store users fuel cat).ids := by
  induction h using Relation.TransGen.head_induction_on with
  | base hpl =>
    intro fuel cat hcid hfuel
    subst hcid
    obtain ⟨c, hcs, hcd, hcp⟩ := hpl
    have hc1 : r cat.id < r c.id := hr c hcs _ hcp
    have hc2 : r c.id < B := hb c hcs
    cases fuel with
    | zero => omega
    | succ f =>
      refine mem_ids_populate_succ.mpr (Or.inr ⟨c, mem_childrenOf.mpr ⟨hcs, hcp⟩, ?_⟩)
      rw [← hcd]
      exact root_mem_ids_populate store users f c
  | ih hpl htg ihm =>
    intro fuel cat hcid hfuel
    subst hcid
    obtain ⟨c, hcs, hcm, hcp⟩ := hpl
    have hc1 : r cat.id < r c.id := hr c hcs _ hcp
    have hc2 : r c.id < B := hb c hcs
    cases fuel with
    | zero => omega
    | succ f =>
      refine mem_ids_populate_succ.mpr (Or.inr ⟨c, mem_childrenOf.mpr ⟨hcs, hcp⟩, ?_⟩)
      exact ihm f c hcm (by rw [← hcm]; omega)

theorem nodup_idsList :
    ∀ {ts : List CatTree}, (∀ t ∈ ts, t.ids.Nodup) →
      ts.Pairwise (fun t₁ t₂ => ∀ d, d ∈ t₁.ids → d ∉ t₂.ids) →
      (CatTree.idsList ts).Nodup := by
  intro ts
  induction ts with
  | nil => intro _ _; simp [CatTree.idsList]
  | cons t ts ih =>
    intro h1 h2
    have : CatTree.idsList (t :: ts) = t.ids ++ CatTree.idsList ts := by
      simp [CatTree.idsList]
    rw [this, List.nodup_append]
    obtain ⟨hhead, htail⟩ := List.pairwise_cons.mp h2
    refine ⟨h1 t (List.mem_cons_self t ts), ih (fun t' ht' => h1 t' (List.mem_cons_of_mem t ht')) htail, ?_⟩
    intro d hd hd'
    obtain ⟨t', ht', hdt'⟩ := mem_idsList.mp hd'
    exact hhead t' ht' d hd hdt'

theorem childrenOf_ids_nodup {store : List StoredCat}
    (hnd : (store.map (fun c => c.id)).Nodup) (pid : Nat) :
    ((childrenOf store pid).map (fun c => c.id)).Nodup := by
  have hsub : (childrenOf store pid).Sublist store := List.filter_sublist store
  exact List.Nodup.sublist (hsub.map _) hnd

theorem nodup_ids_populate {store : List StoredCat} {users : List User}
    {r : Nat → Nat} (hnd : (store.map (fun c => c.id)).Nodup)
    (hr : ∀ c ∈ store, ∀ p, c.parent = some p → r p < r c.id) :
    ∀ (fuel : Nat) (cat : StoredCat),
      ((populateChildrenRecursively store users fuel cat).ids).Nodup := by
  intro fuel
  induction fuel with
  | zero => intro cat; simp [populate_zero, ids_node, CatTree.idsList]
  | succ fuel ih =>
    intro cat
    rw [populate_succ, ids_node, List.nodup_cons]
    constructor
    · intro hmem
      obtain ⟨t, ht, hid⟩ := mem_idsList.mp hmem
      obtain ⟨c, hc, rfl⟩ := List.mem_map.mp ht
      obtain ⟨hcs, hcp⟩ := mem_childrenOf.mp hc
      have h2 := hr c hcs _ hcp
      rcases mem_ids_populate_imp fuel c cat.id hid with heq | hdesc
      · rw [← heq] at h2
        exact lt_irrefl _ h2
      · have h1 := desc_rank_lt hr hdesc
        omega
    · apply nodup_idsList
      · intro t ht
        obtain ⟨c, _, rfl⟩ := List.mem_map.mp ht
        exact ih c
      · rw [List.pairwise_map]
        have hpw : (childrenOf store cat.id).Pairwise (fun c₁ c₂ => c₁.id ≠ c₂.id) := by
          have := childrenOf_ids_nodup hnd cat.id
          rwa [List.Nodup, List.pairwise_map] at this
        refine List.Pairwise.imp_of_mem ?_ hpw
        intro c₁ c₂ hm₁ hm₂ hne d hd1 hd2
        rcases mem_ids_populate_imp fuel c₁ d hd1 with rfl | hdesc1
        · rcases mem_ids_populate_imp fuel c₂ c₁.id hd2 with heq | hdesc2
          · exact hne heq
          · exact no_desc_to_sibling hnd hr hm₁ hm₂ hdesc2
        · rcases mem_ids_populate_imp fuel c₂ d hd2 with rfl | hdesc2
          · exact no_desc_to_sibling hnd hr hm₂ hm₁ hdesc1
          · rcases desc_comparable hnd hr hdesc1 hdesc2 with heq | hd | hd
            · exact hne heq
            · exact no_desc_to_sibling hnd hr hm₂ hm₁ hd
            · exact no_desc_to_sibling hnd hr hm₁ hm₂ hd

theorem populate_fuel_stable {store : List StoredCat} {users : List User}
    {r : Nat → Nat} {B : Nat}
    (hr : ∀ c ∈ store, ∀ p, c.parent = some p → r p < r c.id)
    (hb : ∀ c ∈ store, r c.id < B) :
    ∀ (n : Nat) (cat : StoredCat), cat ∈ store → B - r cat.id ≤ n →
      ∀ f₁ f₂ : Nat, B ≤ f₁ + r cat.id → B ≤ f₂ + r cat.id →
        populateChildrenRecursively store users f₁ cat
          = populateChildrenRecursively store users f₂ cat := by
  intro n
  induction n with
  | zero =>
    intro cat hcat hn f₁ f₂ _ _
    have := hb cat hcat
    omega
  | succ n ih =>
    intro cat hcat hn f₁ f₂ h₁ h₂
    have hrb := hb cat hcat
    cases f₁ with
    | zero => omega
    | succ a =>
      cases f₂ with
      | zero => omega
      | succ b =>
        rw [populate_succ, populate_succ]
        congr 1
        apply List.map_congr_left
        intro c hc
        obtain ⟨hcs, hcp⟩ := mem_childrenOf.mp hc
        have hlt : r cat.id < r c.id := hr c hcs _ hcp
        have hcb := hb c hcs
        exact ih c hcs (by omega) a b (by omega) (by omega)

theorem creator_populate {store : List StoredCat} {users : List User} :
    ∀ (fuel : Nat) (cat : StoredCat),
      ∀ n ∈ (populateChildrenRecursively store users fuel cat).nodes,
        n.creator = lookupUser users n.cat.createdBy := by
  intro fuel
  induction fuel with
  | zero =>
    intro cat n hn
    rw [populate_zero, nodes_node] at hn
    have : n = CatTree.node cat (lookupUser users cat.createdBy) [] := by
      simpa [CatTree.nodesList] using hn
    subst this
    rfl
  | succ fuel ih =>
    intro cat n hn
    rw [populate_succ, nodes_node] at hn
    rcases List.mem_cons.mp hn with rfl | hn'
    · rfl
    · obtain ⟨t, ht, hnt⟩ := mem_nodesList.mp hn'
      obtain ⟨c, _, rfl⟩ := List.mem_map.mp ht
      exact ih c n hnt

theorem leaves_populate {store : List StoredCat} {users : List User}
    {r : Nat → Nat} {B : Nat}
    (hr : ∀ c ∈ store, ∀ p, c.parent = some p → r p < r c.id)
    (hb : ∀ c ∈ store, r c.id < B) :
    ∀ (n : Nat) (cat : StoredCat), cat ∈ store → B - r cat.id ≤ n →
      ∀ fuel : Nat, B ≤ fuel + r cat.id →
        ∀ t ∈ (populateChildrenRecursively store users fuel cat).nodes,
          (t.children = [] ↔ childrenOf store t.cat.id = []) := by
  intro n
  induction n with
  | zero =>
    intro cat hcat hn
    have := hb cat hcat
    omega
  | succ n ih =>
    intro cat hcat hn fuel hfuel t ht
    have hrb := hb cat hcat
    cases fuel with
    | zero => omega
    | succ f =>
      rw [populate_succ, nodes_node] at ht
      rcases List.mem_cons.mp ht with rfl | ht'
      · simp [CatTree.children, CatTree.cat, populate_cat]
      · obtain ⟨t', ht', hnt⟩ := mem_nodesList.mp ht'
        obtain ⟨c, hc, rfl⟩ := List.mem_map.mp ht'
        obtain ⟨hcs, hcp⟩ := mem_childrenOf.mp hc
        have hlt : r cat.id < r c.id := hr c hcs _ hcp
        have hcb := hb c hcs
        exact ih c hcs (by omega) f (by omega) t hnt

/-- **C2.** Recursive tree expansion: fetching a category by slug
succeeds and returns the matched document fully expanded — the ids in
the result are exactly the category itself plus all its descendants
across all depths, without duplication; every node carries its
resolved creator reference; and every node's `children` field is a
(possibly empty) list — leaves carry `[]`, never an absent field. -/
theorem getCategory_expands_all_descendants (store : List StoredCat)
    (users : List User) (slug : String)
    (hnd : (store.map (fun c => c.id)).Nodup) (hac : Acyclic store)
    (cat : StoredCat)
    (hfind : store.find? (fun c => c.slug == slug) = some cat) :
    ∃ t, getCategoryRun store users slug = .ok t ∧
      t.cat = cat ∧
      (∀ d, d ∈ t.ids ↔ d = cat.id ∨ Desc store cat.id d) ∧
      t.ids.Nodup ∧
      (∀ n ∈ t.nodes, n.creator = lookupUser users n.cat.createdBy) ∧
      (∀ n ∈ t.nodes, (n.children = [] ↔ childrenOf store n.cat.id = [])) := by
  obtain ⟨r, hr, hb⟩ := hac
  have hcat : cat ∈ store := List.mem_of_find?_eq_some hfind
  have hrb := hb cat hcat
  refine ⟨populateChildrenRecursively store users store.length cat, ?_,
    populate_cat _ _ _ _, ?_, ?_, ?_, ?_⟩
  · simp [getCategoryRun, hfind]
  · intro d
    constructor
    · exact mem_ids_populate_imp store.length cat d
    · rintro (rfl | hdesc)
      · exact root_mem_ids_populate store users store.length cat
      · exact desc_mem_ids_populate hr hb hdesc store.length cat rfl (by omega)
  · exact nodup_ids_populate hnd hr store.length cat
  · exact creator_populate store.length cat
  · exact leaves_populate hr hb (store.length - r cat.id) cat hcat (le_refl _)
      store.length (by omega)

theorem demoTreeStore_acyclic : Acyclic demoTreeStore := by
  refine ⟨fun i => i - 1, ?_, ?_⟩
  · intro c hc p hp
    simp only [demoTreeStore, List.mem_cons, List.not_mem_nil, or_false] at hc
    rcases hc with rfl | rfl | rfl <;>
      simp [demoTreeA, demoTreeB, demoTreeC] at hp ⊢ <;> omega
  · intro c hc
    simp only [demoTreeStore, List.mem_cons, List.not_mem_nil, or_false] at hc
    rcases hc with rfl | rfl | rfl <;>
      simp [demoTreeA, demoTreeB, demoTreeC, demoTreeStore]

theorem getCategory_expands_all_descendants_witness :
    ∃ t, getCategoryRun demoTreeStore demoUsers "a" = .ok t ∧
      t.cat = demoTreeA ∧
      (∀ d, d ∈ t.ids ↔ d = demoTreeA.id ∨ Desc demoTreeStore demoTreeA.id d) ∧
      t.ids.Nodup ∧
      (∀ n ∈ t.nodes, n.creator = lookupUser demoUsers n.cat.createdBy) ∧
      (∀ n ∈ t.nodes,
        (n.children = [] ↔ childrenOf demoTreeStore n.cat.id = [])) :=
  getCategory_expands_all_descendants demoTreeStore demoUsers "a" (by decide)
    demoTreeStore_acyclic demoTreeA (by decide)

/-- **C3.** Termination of expansion: when the stored parent/child
relation is acyclic, the fuel-indexed embedding of the recursion is
stable from `store.length` on — the unbounded JS recursion never
descends deeper and thus terminates — and it bottoms out exactly at
nodes with zero stored children.  No cycle detection is performed: the
statement is conditional on the acyclicity hypothesis. -/
theorem populate_terminates (store : List StoredCat) (users : List User)
    (hac : Acyclic store) (cat : StoredCat) (hcat : cat ∈ store)
    (fuel : Nat) (hfuel : store.length ≤ fuel) :
    populateChildrenRecursively store users fuel cat
      = populateChildrenRecursively store users store.length cat ∧
    ∀ t ∈ (populateChildrenRecursively store users fuel cat).nodes,
      (t.children = [] ↔ childrenOf store t.cat.id = []) := by
  obtain ⟨r, hr, hb⟩ := hac
  have hrb := hb cat hcat
  constructor
  · exact populate_fuel_stable hr hb (store.length - r cat.id) cat hcat
      (le_refl _) fuel store.length (by omega) (by omega)
  · exact leaves_populate hr hb (store.length - r cat.id) cat hcat (le_refl _)
      fuel (by omega)

theorem populate_terminates_witness :
    populateChildrenRecursively demoTreeStore demoUsers 5 demoTreeB
      = populateChildrenRecursively demoTreeStore demoUsers
          demoTreeStore.length demoTreeB ∧
    ∀ t ∈ (populateChildrenRecursively demoTreeStore demoUsers 5 demoTreeB).nodes,
      (t.children = [] ↔ childrenOf demoTreeStore t.cat.id = []) :=
  populate_terminates demoTreeStore demoUsers demoTreeStore_acyclic demoTreeB
    (by decide) 5 (by decide)

end Xalvion
